import Mathlib

/-!
Verification development for prom-config-watcher (src/main.go).

The Go program watches a configuration directory, debounces bursts of
filesystem change events, rewrites environment-variable references in each
file, copies the results to a target directory, and POSTs a reload request
to Prometheus.  This file shallowly embeds the parts of the program the
claims are about:

* the debounce coordinator loop of main (src/main.go lines 62-95),
* the substitution step os.ExpandEnv used by processFile (line 142),
  modelled byte-for-byte after Go's os.Expand / getShellName,
* processFile (lines 134-149) and the recursive walk
  processConfigChanges (lines 110-132) over a model filesystem tree,
* the listener loop listenForChanges (lines 178-199) and the channel
  created by startWatchingPath (line 156).

Timestamps (Go time.Time values) are modelled as natural numbers; the Go
zero value time.Time\x7b\x7d is 0 and time.Before is strict <.
-/

namespace PromConfigWatcher

/-! ## The debounce coordinator (src/main.go, main, lines 62-95) -/

/-- The coordinator loop's mutable state: exactly the two local variables
lastConfigProcess and lastConfigChange of main. -/
structure CoordState where
  lastConfigProcess : Nat
  lastConfigChange : Nat

/-- The three event sources merged by the select statement of main's loop:
a termination signal, a normalized change timestamp received from the
listener's channel, and the delay timer firing. -/
inductive CoordEvent where
  | sig
  | change (t : Nat)
  | timerFire

/-- Everything one iteration of the loop does that is observable from
outside: the updated state, whether processConfigChanges ran, whether
notifyPrometheus ran, whether (and with which delay) delayTimer.Reset was
called, and whether os.Exit was reached. -/
structure StepResult where
  state : CoordState
  ranPipeline : Bool
  ranNotify : Bool
  timerResetDelay : Option Nat
  exited : Bool

/-- One iteration of main's select loop (src/main.go lines 74-95).

processDelay is the processDelayTime flag value and now is the value
time.Now() would return when line 90 executes.  pipelineFails and
notifierFails say whether processConfigChanges respectively
notifyPrometheus fail internally; both Go functions return nothing, so
these parameters cannot influence the result (they are deliberately
unused, mirroring the void return types). -/
def coordStep (processDelay now : Nat) (pipelineFails notifierFails : Bool)
    (s : CoordState) : CoordEvent → StepResult
  | .sig => ⟨s, false, false, none, true⟩
  | .change t => ⟨⟨s.lastConfigProcess, t⟩, false, false, some processDelay, false⟩
  | .timerFire =>
      if s.lastConfigProcess < s.lastConfigChange then
        ⟨⟨now, s.lastConfigChange⟩, true, true, none, false⟩
      else
        ⟨s, false, false, none, false⟩

/-- Startup state (src/main.go lines 62-64): lastConfigProcess is the Go
zero time (modelled 0) and lastConfigChange is time.Now() at startup. -/
def initState (startTime : Nat) : CoordState :=
  ⟨0, startTime⟩

/-- The delay of the timer armed at startup: time.NewTimer(0)
(src/main.go line 65). -/
def initialTimerDelay : Nat := 0

/-- Number of reprocessing passes performed by a run of the loop that
receives only timer firings (no change events, no signals), the firings
happening at the given sequence of clock values. -/
def countPasses (processDelay : Nat) : CoordState → List Nat → Nat
  | _, [] => 0
  | s, now :: rest =>
      (if (coordStep processDelay now false false s .timerFire).ranPipeline then 1 else 0)
        + countPasses processDelay (coordStep processDelay now false false s .timerFire).state rest

/-! ## The listener task (src/main.go, listenForChanges, lines 178-199) -/

/-- A message the listener's select receives: either an error from
watcher.Errors, or a filesystem event from watcher.Events together with
the outcome of os.Stat on the event's path (none models a stat error,
some t a successful stat with modification time t). -/
inductive WatcherMsg where
  | errMsg
  | event (statResult : Option Nat)

/-- What one iteration of listenForChanges does: the timestamp sent on
the changeTime channel (if any), whether an error was logged, and whether
the loop keeps running afterwards. -/
structure ListenResult where
  sent : Option Nat
  loggedError : Bool
  continues : Bool

/-- One iteration of the listener loop (src/main.go lines 181-198): a
watcher error is logged and the loop continues; an event whose path
cannot be stat-ed is logged and dropped (the continue statement, line
191); otherwise the stat's ModTime is sent on the channel. -/
def listenStep : WatcherMsg → ListenResult
  | .errMsg => ⟨none, true, true⟩
  | .event none => ⟨none, true, true⟩
  | .event (some t) => ⟨some t, false, true⟩

/-- Capacity of the changeTime channel created by startWatchingPath
(src/main.go line 156): make(chan time.Time) is unbuffered. -/
def changeTimeChanCapacity : Nat := 0

/-- A send on a Go channel completes without a waiting receiver if and
only if the number of values already buffered is below the capacity. -/
def chanCanBuffer (cap pending : Nat) : Bool := pending < cap

/-! ## The substitution step (src/main.go line 142: os.ExpandEnv)

processFile substitutes environment references with
os.ExpandEnv(string(contents)), which is os.Expand(s, os.Getenv).  The
definitions below mirror the Go standard library's os.Expand,
getShellName, isShellSpecialVar and isAlphaNum byte for byte (contents
are modelled as lists of characters).  os.Getenv returns the empty
string for a name that is not present in the environment. -/

/-- Go os.isShellSpecialVar: reports whether the character identifies a
special shell variable such as $*. -/
def isShellSpecialVar (c : Char) : Bool :=
  c = '*' || c = '#' || c = '$' || c = '@' || c = '!' || c = '?' || c = '-' ||
  c = '0' || c = '1' || c = '2' || c = '3' || c = '4' ||
  c = '5' || c = '6' || c = '7' || c = '8' || c = '9'

/-- Go os.isAlphaNum: reports whether the character is a valid
non-leading character of an environment variable name. -/
def isAlphaNum (c : Char) : Bool :=
  c = '_' || ('0' ≤ c && c ≤ '9') || ('a' ≤ c && c ≤ 'z') || ('A' ≤ c && c ≤ 'Z')

/-- Length of the longest alphanumeric prefix: the loop
"for i = 0; i < len(s) && isAlphaNum(s[i]); i++" of Go getShellName. -/
def scanName : List Char → Nat
  | [] => 0
  | c :: rest => if isAlphaNum c then scanName rest + 1 else 0

/-- Index of the first closing brace, if any: the scan
"for i := 1; i < len(s); i++ \x7b if s[i] == brace ...\x7d" of Go
getShellName, with indices shifted down by one (the scan there starts
after the opening brace). -/
def bracePos : List Char → Option Nat
  | [] => none
  | c :: rest => if c = '}' then some 0 else (bracePos rest).map (· + 1)

/-- Go os.getShellName: the name referenced at the start of s (which is
the text following a dollar sign) and the number of characters consumed.
A result ([], w) with w > 0 is invalid syntax to be eaten; ([], 0) means
the dollar sign is left untouched.  Go's fast path for a braced single
special-variable name returns the same result as the general brace scan
and is subsumed by it. -/
def getShellName : List Char → List Char × Nat
  | [] => ([], 0)
  | c :: rest =>
      if c = '{' then
        match bracePos rest with
        | some 0 => ([], 2)
        | some i => (rest.take i, i + 2)
        | none => ([], 1)
      else if isShellSpecialVar c then ([c], 1)
      else ((c :: rest).take (scanName (c :: rest)), scanName (c :: rest))

/-- Go os.Expand(s, m), written with explicit fuel so that the recursion
is structural; every recursive call consumes at least one character, so
any fuel of at least the input's length computes os.Expand.  A dollar
sign that is the last character is copied through (Go's j+1 < len(s)
guard). -/
def expandAux (m : List Char → List Char) : Nat → List Char → List Char
  | _, [] => []
  | 0, s => s
  | fuel + 1, c :: rest =>
      if c = '$' ∧ rest ≠ [] then
        if (getShellName rest).1 = [] ∧ 0 < (getShellName rest).2 then
          expandAux m fuel (rest.drop (getShellName rest).2)
        else if (getShellName rest).1 = [] then
          '$' :: expandAux m fuel rest
        else
          m (getShellName rest).1 ++ expandAux m fuel (rest.drop (getShellName rest).2)
      else c :: expandAux m fuel rest

/-- Go os.Expand(s, m). -/
def osExpand (m : List Char → List Char) (s : List Char) : List Char :=
  expandAux m s.length s

/-- Go os.Getenv against a modelled environment (an association list of
name/value pairs): the empty string when the name is not present. -/
def getenv (env : List (List Char × List Char)) (name : List Char) : List Char :=
  match env.find? (fun p => p.1 == name) with
  | some p => p.2
  | none => []

/-- Go os.ExpandEnv, the substitution step of processFile
(src/main.go line 142). -/
def osExpandEnv (env : List (List Char × List Char)) (s : List Char) : List Char :=
  osExpand (getenv env) s

/-- A character that can begin a shell reference after a dollar sign:
an opening brace, a special shell variable, or an alphanumeric. -/
def nameStart (c : Char) : Bool :=
  c = '{' || isShellSpecialVar c || isAlphaNum c

/-- Text in which every dollar sign is either the last character or is
followed by a character that cannot begin a reference.  osExpand leaves
such text unchanged; with an environment whose values contain no dollar
sign, osExpand only produces such text. -/
def inertB : List Char → Bool
  | [] => true
  | c :: rest =>
      if c = '$' then
        match rest with
        | [] => true
        | d :: _ => !nameStart d && inertB rest
      else inertB rest

/-! ## Paths (Go path.Split, path.Join, path.Clean)

processFile computes its output path with path.Split and path.Join
(src/main.go lines 145-146), and the walk joins directory entries with
path.Join (line 127).  path.Join concatenates its non-empty elements
with a slash and applies path.Clean; pathClean below is the stack
formulation of path.Clean's lexical lazybuf algorithm (split into
components; drop empty and dot components; a dotdot component pops a
previous component, is dropped at the root, and is kept when there is
nothing left to pop in a relative path). -/

/-- Components of a path, split at every slash. -/
def splitSlash : List Char → List (List Char)
  | [] => [[]]
  | c :: rest =>
      match splitSlash rest with
      | [] => [[c]]
      | g :: gs => if c = '/' then [] :: g :: gs else (c :: g) :: gs

/-- Process path components left to right against a stack of output
components (kept reversed): Go path.Clean's main loop. -/
def cleanStack (rooted : Bool) : List (List Char) → List (List Char) → List (List Char)
  | acc, [] => acc.reverse
  | acc, comp :: rest =>
      if comp = [] ∨ comp = ['.'] then cleanStack rooted acc rest
      else if comp = ['.', '.'] then
        match acc with
        | top :: acc' =>
            if top = ['.', '.'] then cleanStack rooted (comp :: top :: acc') rest
            else cleanStack rooted acc' rest
        | [] => if rooted then cleanStack rooted [] rest else cleanStack rooted [comp] rest
      else cleanStack rooted (comp :: acc) rest

/-- Join components with slashes. -/
def joinSlash : List (List Char) → List Char
  | [] => []
  | [c] => c
  | c :: rest => c ++ '/' :: joinSlash rest

/-- Go path.Clean (lexical). -/
def pathClean (p : List Char) : List Char :=
  if p = [] then ['.']
  else
    let rooted := p.head? = some '/'
    let out := joinSlash (cleanStack rooted [] (splitSlash p))
    if rooted then '/' :: out
    else if out = [] then ['.']
    else out

/-- Go path.Join for two elements: empty elements are skipped, the rest
are joined with a slash and cleaned; all-empty input yields the empty
string. -/
def pathJoin (a b : List Char) : List Char :=
  if a = [] ∧ b = [] then []
  else if a = [] then pathClean b
  else if b = [] then pathClean a
  else pathClean (a ++ '/' :: b)

/-- The file part of Go path.Split: everything after the final slash
(the whole path when it has no slash). -/
def splitBase (p : List Char) : List Char :=
  (p.reverse.takeWhile (fun c => c ≠ '/')).reverse

/-- The target path processFile writes to (src/main.go lines 145-146):
path.Join(destFolder, fileName) where fileName is the file part of
path.Split(filePath). -/
def targetFileOf (destFolder filePath : List Char) : List Char :=
  pathJoin destFolder (splitBase filePath)

/-! ## processFile (src/main.go lines 134-149) -/

/-- Observable behaviour of processFile on one file.  readResult is the
outcome of ioutil.ReadFile (none models a read error, in which case Go
leaves contents nil, i.e. the empty string). -/
structure ProcessFileResult where
  loggedReadError : Bool
  written : Option (List Char)
  loggedWriteError : Bool

/-- processFile (src/main.go lines 134-149).  On a read error the error
is logged but the function does not return: it falls through, expands
the empty contents and still writes the result to the target file.  The
error returned by ioutil.WriteFile is discarded, so a write failure is
never logged. -/
def processFile (env : List (List Char × List Char))
    (readResult : Option (List Char)) : ProcessFileResult :=
  { loggedReadError := readResult.isNone
    written := some (osExpandEnv env (readResult.getD []))
    loggedWriteError := false }

/-! ## The recursive walk (src/main.go, processConfigChanges, lines 110-132)

The filesystem under the watched path is modelled as a finite tree: a
node is either a regular file with contents or a directory with a list
of named entries (ioutil.ReadDir returns the entries sorted by name; the
model takes them in the order of the list). -/

mutual

inductive FSNode where
  | file (content : List Char)
  | dir (entries : FSEntries)

inductive FSEntries where
  | nil
  | cons (name : List Char) (node : FSNode) (rest : FSEntries)

end

mutual

/-- Number of regular files in a tree. -/
def FSNode.fileCount : FSNode → Nat
  | .file _ => 1
  | .dir es => es.fileCount

def FSEntries.fileCount : FSEntries → Nat
  | .nil => 0
  | .cons _ n rest => n.fileCount + rest.fileCount

end

mutual

/-- The walk processConfigChanges (src/main.go lines 110-132), recorded
as the ordered list of writes it performs: for a regular file at
srcPath it performs processFile's write of the expanded contents to
targetFileOf dstPath srcPath; for a directory it recurses into each
entry at path.Join(srcPath, name). -/
def processConfigChanges (env : List (List Char × List Char))
    (dstPath srcPath : List Char) : FSNode → List (List Char × List Char)
  | .file c => [(targetFileOf dstPath srcPath, osExpandEnv env c)]
  | .dir es => processConfigChangesEntries env dstPath srcPath es

def processConfigChangesEntries (env : List (List Char × List Char))
    (dstPath srcPath : List Char) : FSEntries → List (List Char × List Char)
  | .nil => []
  | .cons name n rest =>
      processConfigChanges env dstPath (pathJoin srcPath name) n
        ++ processConfigChangesEntries env dstPath srcPath rest

end

/-- The contents of the target directory after a sequence of writes,
each overwriting any earlier write to the same path
(ioutil.WriteFile truncates an existing file): the last write wins. -/
def storeLookup (writes : List (List Char × List Char)) (p : List Char) :
    Option (List Char) :=
  (writes.reverse.find? (fun e => e.1 == p)).map (fun e => e.2)

/-! ## Helper lemmas about the substitution scanner -/

theorem getShellName_not_nameStart (c : Char) (rest : List Char)
    (h : nameStart c = false) : getShellName (c :: rest) = ([], 0) := by
  have h' := h
  simp only [nameStart, Bool.or_eq_false_iff, decide_eq_false_iff_not] at h'
  obtain ⟨⟨hbrace, hspec⟩, halpha⟩ := h'
  simp [getShellName, hbrace, hspec, scanName, halpha]

theorem getShellName_pos_of_nameStart (c : Char) (rest : List Char)
    (h : nameStart c = true) ( h1 : (getShellName (c :: rest)).1 = []) :
    0 < (getShellName (c :: rest)).2 := by
  by_cases hbrace : c = '{'
  · subst hbrace
    simp only [getShellName, if_pos rfl]
    rcases hb : bracePos rest with _ | i
    · simp
    · rcases i with _ | i <;> simp
  · by_cases hspec : isShellSpecialVar c = true
    · simp [getShellName, hbrace, hspec] at h1
    · have halpha : isAlphaNum c = true := by
        simp only [nameStart, Bool.or_eq_true, decide_eq_true_eq] at h
        rcases h with (h | h) | h
        · exact absurd h hbrace
        · exact absurd h hspec
        · exact h
      simp [getShellName, hbrace, hspec, scanName, halpha]

theorem inertB_cons_ne (c : Char) (l : List Char) (h : ¬ c = '$') :
    inertB (c :: l) = inertB l := by
  simp [inertB, h]

theorem inertB_append_left (a b : List Char) (ha : '$' ∉ a)
    (hb : inertB b = true) : inertB (a ++ b) = true := by
  induction a with
  | nil => simpa using hb
  | cons c a ih =>
      have hc : ¬ c = '$' := fun hh => ha (hh ▸ List.mem_cons_self c a)
      rw [List.cons_append, inertB_cons_ne c (a ++ b) hc]
      exact ih (fun hm => ha (List.mem_cons_of_mem c hm))

theorem expandAux_fuel (m : List Char → List Char) :
    ∀ (f g : Nat) (s : List Char), s.length ≤ f → s.length ≤ g →
      expandAux m f s = expandAux m g s := by
  intro f
  induction f with
  | zero =>
      intro g s hf _
      have : s = [] := List.eq_nil_of_length_eq_zero (Nat.le_zero.mp hf)
      subst this
      cases g <;> rfl
  | succ f ih =>
      intro g s hf hg
      cases s with
      | nil => cases g <;> rfl
      | cons c rest =>
          have hr : rest.length + 1 ≤ f + 1 := by simpa using hf
          have hrf : rest.length ≤ f := Nat.lt_succ_iff.mp hr
          cases g with
          | zero => exact absurd hg (by simp)
          | succ g =>
              have hrg : rest.length ≤ g := by simpa using hg
              simp only [expandAux]
              by_cases hc : c = '$' ∧ rest ≠ []
              · rw [if_pos hc, if_pos hc]
                by_cases h1 : (getShellName rest).1 = [] ∧ 0 < (getShellName rest).2
                · rw [if_pos h1, if_pos h1]
                  exact ih g _ (le_trans (by simp [List.length_drop]) hrf)
                    (le_trans (by simp [List.length_drop]) hrg)
                · rw [if_neg h1, if_neg h1]
                  by_cases h2 : (getShellName rest).1 = []
                  · rw [if_pos h2, if_pos h2, ih g rest hrf hrg]
                  · rw [if_neg h2, if_neg h2,
                      ih g _ (le_trans (by simp [List.length_drop]) hrf)
                        (le_trans (by simp [List.length_drop]) hrg)]
              · rw [if_neg hc, if_neg hc, ih g rest hrf hrg]

theorem expandAux_nil (m : List Char → List Char) (f : Nat) :
    expandAux m f [] = [] := by
  cases f <;> rfl

theorem expandAux_of_inertB (m : List Char → List Char) :
    ∀ (f : Nat) (s : List Char), s.length ≤ f → inertB s = true →
      expandAux m f s = s := by
  intro f
  induction f with
  | zero =>
      intro s hf _
      have : s = [] := List.eq_nil_of_length_eq_zero (Nat.le_zero.mp hf)
      subst this; rfl
  | succ f ih =>
      intro s hf hin
      cases s with
      | nil => rfl
      | cons c rest =>
          have hrf : rest.length ≤ f := by simpa using hf
          simp only [expandAux]
          by_cases hc : c = '$' ∧ rest ≠ []
          · obtain ⟨hc1, hc2⟩ := hc
            subst hc1
            obtain ⟨d, rest', rfl⟩ : ∃ d r', rest = d :: r' := by
              cases rest with
              | nil => exact absurd rfl hc2
              | cons d r' => exact ⟨d, r', rfl⟩
            have hin' : nameStart d = false ∧ inertB (d :: rest') = true := by
              simpa [inertB, Bool.and_eq_true] using hin
            rw [if_pos ⟨rfl, hc2⟩, getShellName_not_nameStart d rest' hin'.1]
            simp only [lt_irrefl, and_false, if_false, if_pos (And.intro rfl rfl)]
            rw [ih (d :: rest') hrf hin'.2]
            simp
          · rw [if_neg hc]
            by_cases hc1 : c = '$'
            · subst hc1
              have hrest : rest = [] := by
                by_contra hne
                exact hc ⟨rfl, hne⟩
              subst hrest
              rw [expandAux_nil]
            · rw [ih rest hrf (by rwa [inertB_cons_ne c rest hc1] at hin)]

theorem inertB_expandAux (m : List Char → List Char)
    (hm : ∀ n, '$' ∉ m n) :
    ∀ (f : Nat) (s : List Char), s.length ≤ f →
      inertB (expandAux m f s) = true := by
  intro f
  induction f with
  | zero =>
      intro s hf
      have : s = [] := List.eq_nil_of_length_eq_zero (Nat.le_zero.mp hf)
      subst this; rfl
  | succ f ih =>
      intro s hf
      cases s with
      | nil => rfl
      | cons c rest =>
          have hrf : rest.length ≤ f := by simpa using hf
          simp only [expandAux]
          by_cases hc : c = '$' ∧ rest ≠ []
          · obtain ⟨hc1, hc2⟩ := hc
            subst hc1
            obtain ⟨d, rest', rfl⟩ : ∃ d r', rest = d :: r' := by
              cases rest with
              | nil => exact absurd rfl hc2
              | cons d r' => exact ⟨d, r', rfl⟩
            rw [if_pos ⟨rfl, hc2⟩]
            by_cases hd : nameStart d = true
            · by_cases h1 : (getShellName (d :: rest')).1 = [] ∧
                  0 < (getShellName (d :: rest')).2
              · rw [if_pos h1]
                exact ih _ (le_trans (by simp [List.length_drop]) hrf)
              · rw [if_neg h1]
                by_cases h2 : (getShellName (d :: rest')).1 = []
                · exact absurd ⟨h2, getShellName_pos_of_nameStart d rest' hd h2⟩ h1
                · rw [if_neg h2]
                  exact inertB_append_left _ _ (hm _)
                    (ih _ (le_trans (by simp [List.length_drop]) hrf))
            · have hd' : nameStart d = false := by
                cases hnd : nameStart d
                · rfl
                · exact absurd hnd hd
              rw [getShellName_not_nameStart d rest' hd']
              simp only [lt_irrefl, and_false, if_false, if_pos (And.intro rfl rfl)]
              have hdne : ¬ d = '$' := by
                intro hh
                subst hh
                simp [nameStart, isShellSpecialVar] at hd'
              obtain ⟨f', rfl⟩ : ∃ f', f = f' + 1 := by
                cases f with
                | zero => simp at hrf
                | succ f' => exact ⟨f', rfl⟩
              have hstep : expandAux m (f' + 1) (d :: rest')
                  = d :: expandAux m f' rest' := by
                simp only [expandAux]
                rw [if_neg (fun hh => hdne hh.1)]
              have hrec : inertB (d :: expandAux m f' rest') = true := by
                rw [← hstep]
                exact ih (d :: rest') hrf
              rw [hstep]
              show (!nameStart d && inertB (d :: expandAux m f' rest')) = true
              rw [hd', hrec]
              rfl
          · rw [if_neg hc]
            by_cases hc1 : c = '$'
            · subst hc1
              have hrest : rest = [] := by
                by_contra hne
                exact hc ⟨rfl, hne⟩
              subst hrest
              rw [expandAux_nil]
              rfl
            · rw [inertB_cons_ne c _ hc1]
              exact ih rest hrf

theorem bracePos_append (s : List Char) :
    ∀ (name : List Char), '}' ∉ name →
      bracePos (name ++ '}' :: s) = some name.length := by
  intro name
  induction name with
  | nil => intro _; simp [bracePos]
  | cons c name ih =>
      intro h
      have hc : ¬ c = '}' := fun hh => h (hh ▸ List.mem_cons_self c name)
      simp only [List.cons_append, bracePos, if_neg hc, List.append_eq]
      rw [ih (fun hm => h (List.mem_cons_of_mem c hm))]
      rfl

theorem take_len_append (a : List Char) (b : List Char) :
    (a ++ b).take a.length = a := by
  induction a with
  | nil => rfl
  | cons c a ih => simp [ih]

theorem drop_append_cons (a : List Char) (x : Char) (b : List Char) :
    (a ++ x :: b).drop (a.length + 1) = b := by
  induction a with
  | nil => rfl
  | cons c a ih => simpa using ih

theorem getShellName_braced (name s : List Char) (h0 : name ≠ [])
    (h1 : '}' ∉ name) :
    getShellName ('{' :: (name ++ '}' :: s)) = (name, name.length + 2) := by
  have hb := bracePos_append s name h1
  cases hn : name.length with
  | zero => exact absurd (List.eq_nil_of_length_eq_zero hn) h0
  | succ k =>
      rw [hn] at hb
      simp only [getShellName, if_pos rfl, if_true, hb]
      rw [← hn, take_len_append]

theorem countPasses_clean (processDelay : Nat) :
    ∀ (l : List Nat) (s : CoordState),
      s.lastConfigChange ≤ s.lastConfigProcess → countPasses processDelay s l = 0 := by
  intro l
  induction l with
  | nil => intro s _; rfl
  | cons now rest ih =>
      intro s hle
      have hnot : ¬ s.lastConfigProcess < s.lastConfigChange := not_lt.mpr hle
      simp [countPasses, coordStep, if_neg hnot]
      exact ih s hle

mutual

theorem walkLen_node (env : List (List Char × List Char)) (dst : List Char) :
    ∀ (src : List Char) (t : FSNode),
      (processConfigChanges env dst src t).length = t.fileCount
  | _, .file _ => rfl
  | src, .dir es => walkLen_entries env dst src es

theorem walkLen_entries (env : List (List Char × List Char)) (dst : List Char) :
    ∀ (src : List Char) (es : FSEntries),
      (processConfigChangesEntries env dst src es).length = es.fileCount
  | _, .nil => rfl
  | src, .cons name n rest => by
      simp only [processConfigChangesEntries, FSEntries.fileCount,
        List.length_append, walkLen_node env dst (pathJoin src name) n,
        walkLen_entries env dst src rest]

end

theorem drop_len_append (a b : List Char) : (a ++ b).drop a.length = b := by
  induction a with
  | nil => rfl
  | cons c a ih => simpa using ih

theorem scanName_append (s : List Char)
    (hs : ∀ d ∈ s.take 1, isAlphaNum d = false) :
    ∀ (name : List Char), (∀ c ∈ name, isAlphaNum c = true) →
      scanName (name ++ s) = name.length := by
  intro name
  induction name with
  | nil =>
      intro _
      cases s with
      | nil => rfl
      | cons d s' =>
          have hd : isAlphaNum d = false := hs d (by simp)
          simp [scanName, hd]
  | cons c name ih =>
      intro h
      have hc : isAlphaNum c = true := h c (by simp)
      simp [scanName, hc, ih (fun x hx => h x (by simp [hx]))]

theorem getShellName_plain (n0 : Char) (name' s : List Char)
    (h0 : isAlphaNum n0 = true) (h1 : isShellSpecialVar n0 = false)
    (hall : ∀ c ∈ name', isAlphaNum c = true)
    (hs : ∀ d ∈ s.take 1, isAlphaNum d = false) :
    getShellName (n0 :: (name' ++ s)) = (n0 :: name', name'.length + 1) := by
  have hbrace : ¬ n0 = '{' := fun hh => absurd (hh ▸ h0) (by decide)
  have hspec : ¬ (isShellSpecialVar n0 = true) := by simp [h1]
  have hscan := scanName_append s hs (n0 :: name')
    (fun c hc => by
      rcases List.mem_cons.mp hc with h | h
      · exact h ▸ h0
      · exact hall c h)
  rw [List.cons_append] at hscan
  simp only [getShellName, if_neg hbrace, if_neg hspec, hscan]
  simp [List.take_succ_cons, take_len_append]

theorem expandAux_cons_ne_dollar (m : List Char → List Char) (c : Char)
    (hc : ¬ c = '$') (rest : List Char) (f : Nat) :
    expandAux m (f + 1) (c :: rest) = c :: expandAux m f rest := by
  simp only [expandAux]
  rw [if_neg (fun hh => hc hh.1)]

theorem osExpand_append_no_dollar (m : List Char → List Char) :
    ∀ (p : List Char), '$' ∉ p → ∀ (s : List Char),
      osExpand m (p ++ s) = p ++ osExpand m s := by
  intro p
  induction p with
  | nil => intro _ s; rfl
  | cons c p ih =>
      intro hp s
      have hc : ¬ c = '$' := fun hh => hp (hh ▸ List.mem_cons_self c p)
      have hstep : osExpand m ((c :: p) ++ s) = c :: osExpand m (p ++ s) := by
        show expandAux m ((c :: (p ++ s)).length) (c :: (p ++ s)) = _
        simp only [List.length_cons]
        exact expandAux_cons_ne_dollar m c hc (p ++ s) (p ++ s).length
      rw [hstep, ih (fun h => hp (List.mem_cons_of_mem c h)) s, List.cons_append]

theorem osExpand_braced_head (m : List Char → List Char) (name s : List Char)
    (h0 : name ≠ []) (h1 : '}' ∉ name) :
    osExpand m ('$' :: '{' :: (name ++ '}' :: s)) = m name ++ osExpand m s := by
  show expandAux m ('$' :: '{' :: (name ++ '}' :: s)).length
      ('$' :: '{' :: (name ++ '}' :: s)) = _
  simp only [List.length_cons]
  simp only [expandAux]
  rw [if_pos (And.intro trivial (List.cons_ne_nil '{' (name ++ '}' :: s)))]
  simp only [getShellName_braced name s h0 h1]
  rw [if_neg (fun hh => h0 hh.1), if_neg h0]
  have hdrop : List.drop (name.length + 2) ('{' :: (name ++ '}' :: s)) = s := by
    show List.drop (name.length + 1) (name ++ '}' :: s) = s
    exact drop_append_cons name '}' s
  rw [hdrop]
  rw [expandAux_fuel m ((name ++ '}' :: s).length + 1) s.length s
    (by simp only [List.length_append, List.length_cons]; omega) le_rfl]
  rfl

theorem osExpand_plain_head (m : List Char → List Char) (n0 : Char)
    (name' s : List Char) (h0 : isAlphaNum n0 = true)
    (h1 : isShellSpecialVar n0 = false)
    (hall : ∀ c ∈ name', isAlphaNum c = true)
    (hs : ∀ d ∈ s.take 1, isAlphaNum d = false) :
    osExpand m ('$' :: ((n0 :: name') ++ s)) = m (n0 :: name') ++ osExpand m s := by
  show expandAux m ('$' :: ((n0 :: name') ++ s)).length
      ('$' :: ((n0 :: name') ++ s)) = _
  simp only [List.cons_append, List.length_cons]
  simp only [expandAux]
  rw [if_pos (And.intro trivial (List.cons_ne_nil n0 (name' ++ s)))]
  simp only [getShellName_plain n0 name' s h0 h1 hall hs]
  rw [if_neg (fun hh => List.cons_ne_nil n0 name' hh.1),
    if_neg (List.cons_ne_nil n0 name')]
  have hdrop : List.drop (name'.length + 1) (n0 :: (name' ++ s)) = s := by
    show List.drop name'.length (name' ++ s) = s
    exact drop_len_append name' s
  rw [hdrop]
  rw [expandAux_fuel m ((name' ++ s).length + 1) s.length s
    (by simp only [List.length_append]; omega) le_rfl]
  rfl

/-! ## Claim theorems -/

/-- Claim C1: when the debounce timer fires, the reprocessing pipeline and
the notifier are invoked if and only if lastConfigProcess is strictly
before lastConfigChange at that moment; when lastConfigProcess is at or
after lastConfigChange the firing performs no pipeline invocation, no
notification, and changes no state. -/
theorem timer_fire_runs_pass_iff (processDelay now : Nat) (pf nf : Bool)
    (s : CoordState) :
    (((coordStep processDelay now pf nf s .timerFire).ranPipeline = true ∧
      (coordStep processDelay now pf nf s .timerFire).ranNotify = true) ↔
      s.lastConfigProcess < s.lastConfigChange) ∧
    (s.lastConfigChange ≤ s.lastConfigProcess →
      coordStep processDelay now pf nf s .timerFire
        = ⟨s, false, false, none, false⟩) := by
  by_cases h : s.lastConfigProcess < s.lastConfigChange
  · refine ⟨?_, fun hle => absurd h (not_lt.mpr hle)⟩
    simp [coordStep, h]
  · refine ⟨?_, fun _ => ?_⟩ <;> simp [coordStep, h]

/-- Witness for the claim C1 theorem at concrete states: a firing with
lastConfigProcess = 4 at or past lastConfigChange = 2 is a no-op, and a
firing with lastConfigProcess = 1 before lastConfigChange = 2 runs the
pipeline and the notifier. -/
theorem timer_fire_runs_pass_iff_witness :
    coordStep 5 7 false false ⟨4, 2⟩ .timerFire = ⟨⟨4, 2⟩, false, false, none, false⟩ ∧
    ((coordStep 5 7 false false ⟨1, 2⟩ .timerFire).ranPipeline = true ∧
      (coordStep 5 7 false false ⟨1, 2⟩ .timerFire).ranNotify = true) :=
  ⟨(timer_fire_runs_pass_iff 5 7 false false ⟨4, 2⟩).2 (by decide),
    (timer_fire_runs_pass_iff 5 7 false false ⟨1, 2⟩).1.mpr (by decide)⟩

/-- Claim C2, counterexample: the claim says the channel carrying change
timestamps buffers at least one pending value; the channel created at
src/main.go line 156 is unbuffered (capacity 0), so not even one value
can be buffered. -/
theorem change_chan_unbuffered_counterexample :
    changeTimeChanCapacity < 1 ∧
    chanCanBuffer changeTimeChanCapacity 0 = false := by
  decide

/-- Claim C2 as amended: the channel is unbuffered; no number of pending
values, not even zero, is below its capacity, so a send can only
complete by rendezvous with a receiving coordinator and the listener
blocks while the coordinator is busy running a pass. -/
theorem change_chan_never_buffers :
    changeTimeChanCapacity = 0 ∧
    ∀ pending : Nat, chanCanBuffer changeTimeChanCapacity pending = false := by
  refine ⟨rfl, fun pending => ?_⟩
  simp [chanCanBuffer, changeTimeChanCapacity]

/-- Claim C5: on a read error processFile logs the error but does not
skip the file: contents stay nil, so the expansion of the empty string
is still written to the target file (the missing return after the log
at src/main.go line 139), and the error returned by ioutil.WriteFile is
discarded, never logged.  Evaluates the model at the failing input (a
file whose read fails). -/
theorem read_error_still_writes (env : List (List Char × List Char)) :
    (processFile env none).loggedReadError = true ∧
    (processFile env none).written = some [] ∧
    (processFile env none).loggedWriteError = false :=
  ⟨rfl, rfl, rfl⟩

/-- Claim C6: a timer firing that starts a pass always advances
lastConfigProcess to the current time; the outcome of the pipeline and
of the notifier cannot influence the step (both Go calls return
nothing), no timer is re-armed by the firing, lastConfigChange is
untouched, and once the pass's completion time is at or past
lastConfigChange a further firing performs no pass (no automatic
retry). -/
theorem pass_advances_process_time (processDelay now : Nat) (pf nf : Bool)
    (s : CoordState) (h : s.lastConfigProcess < s.lastConfigChange) :
    (coordStep processDelay now pf nf s .timerFire).state.lastConfigProcess = now ∧
    (coordStep processDelay now pf nf s .timerFire).state.lastConfigChange
      = s.lastConfigChange ∧
    (coordStep processDelay now pf nf s .timerFire).timerResetDelay = none ∧
    coordStep processDelay now pf nf s .timerFire
      = coordStep processDelay now false false s .timerFire ∧
    (s.lastConfigChange ≤ now →
      (coordStep processDelay now pf nf
        (coordStep processDelay now pf nf s .timerFire).state .timerFire).ranPipeline
        = false) := by
  refine ⟨?_, ?_, ?_, rfl, ?_⟩
  · simp [coordStep, h]
  · simp [coordStep, h]
  · simp [coordStep, h]
  · intro hle
    have : ¬ now < s.lastConfigChange := not_lt.mpr hle
    simp [coordStep, h, this]

/-- Witness for the claim C6 theorem: a pass at time 9 from state (1, 3)
with both the pipeline and the notifier failing still records process
time 9, and a further firing at time 11 performs no pass. -/
theorem pass_advances_process_time_witness :
    (coordStep 5 9 true true ⟨1, 3⟩ .timerFire).state.lastConfigProcess = 9 ∧
    (coordStep 5 9 true true
      (coordStep 5 9 true true ⟨1, 3⟩ .timerFire).state .timerFire).ranPipeline = false :=
  ⟨(pass_advances_process_time 5 9 true true ⟨1, 3⟩ (by decide)).1,
    (pass_advances_process_time 5 9 true true ⟨1, 3⟩ (by decide)).2.2.2.2 (by decide)⟩

/-- Claim C8: a raw filesystem event whose path cannot be stat-ed is
dropped (nothing is sent to the coordinator), an error is logged, and
the listener loop continues; no message kind terminates the listener
loop, and a successfully stat-ed event sends the modification time. -/
theorem stat_error_drops_event (t : Nat) :
    listenStep (.event none) = ⟨none, true, true⟩ ∧
    (∀ msg, (listenStep msg).continues = true) ∧
    (listenStep (.event (some t))).sent = some t := by
  refine ⟨rfl, ?_, rfl⟩
  intro msg
  cases msg with
  | errMsg => rfl
  | event r => cases r <;> rfl

/-- Claim C3, counterexample: the claim says a reference whose name is
not defined in the environment is left in the output as the literal
reference text; with an empty environment os.ExpandEnv maps the sole
reference in the input to the empty string instead, so the output is
not the input. -/
theorem undefined_ref_deleted_counterexample :
    osExpandEnv [] "${FOO}".data = [] ∧ "${FOO}".data ≠ ([] : List Char) := by
  decide

/-- Claim C3 as amended: after any dollar-free prefix of the content,
both reference forms are resolved against the environment — a braced
reference with a nonempty, brace-free name, and an unbraced reference
whose name starts with a letter or underscore, continues alphanumeric,
and ends where the following text stops being alphanumeric — each
replaced by getenv of the name with the remaining text expanded after
it; and getenv of a name with no binding in the environment is the
empty string, so an undefined reference is replaced by the empty string
(deleted) rather than left as literal text; no error is raised (the
substitution is a total function). -/
theorem refs_resolved_undefined_deleted (env : List (List Char × List Char)) :
    (∀ p name s : List Char, '$' ∉ p → name ≠ [] → '}' ∉ name →
      osExpandEnv env (p ++ '$' :: '{' :: (name ++ '}' :: s))
        = p ++ (getenv env name ++ osExpandEnv env s)) ∧
    (∀ (p : List Char) (n0 : Char) (name' s : List Char), '$' ∉ p →
      isAlphaNum n0 = true → isShellSpecialVar n0 = false →
      (∀ c ∈ name', isAlphaNum c = true) →
      (∀ d ∈ s.take 1, isAlphaNum d = false) →
      osExpandEnv env (p ++ '$' :: ((n0 :: name') ++ s))
        = p ++ (getenv env (n0 :: name') ++ osExpandEnv env s)) ∧
    (∀ name : List Char,
      env.find? (fun q => q.1 == name) = none → getenv env name = []) := by
  refine ⟨?_, ?_, ?_⟩
  · intro p name s hp h0 h1
    unfold osExpandEnv
    rw [osExpand_append_no_dollar (getenv env) p hp,
      osExpand_braced_head (getenv env) name s h0 h1]
  · intro p n0 name' s hp h0 h1 hall hs
    unfold osExpandEnv
    rw [osExpand_append_no_dollar (getenv env) p hp,
      osExpand_plain_head (getenv env) n0 name' s h0 h1 hall hs]
  · intro name h
    unfold getenv
    rw [h]

/-- Witness for the claim C3 theorem: PORT=9090 resolves a braced PORT
reference after the prefix "listen: ", and an unbraced PORT reference
after the prefix "port ", with the rest of the text expanded after
each. -/
theorem refs_resolved_undefined_deleted_witness :
    osExpandEnv [("PORT".data, "9090".data)]
        ("listen: ".data ++ '$' :: '{' :: ("PORT".data ++ '}' :: " end".data))
      = "listen: ".data ++ (getenv [("PORT".data, "9090".data)] "PORT".data
          ++ osExpandEnv [("PORT".data, "9090".data)] " end".data) ∧
    osExpandEnv [("PORT".data, "9090".data)]
        ("port ".data ++ '$' :: (('P' :: "ORT".data) ++ " here".data))
      = "port ".data ++ (getenv [("PORT".data, "9090".data)] ('P' :: "ORT".data)
          ++ osExpandEnv [("PORT".data, "9090".data)] " here".data) :=
  ⟨(refs_resolved_undefined_deleted [("PORT".data, "9090".data)]).1
      "listen: ".data "PORT".data " end".data (by decide) (by decide) (by decide),
    (refs_resolved_undefined_deleted [("PORT".data, "9090".data)]).2.1
      "port ".data 'P' "ORT".data " here".data
      (by decide) (by decide) (by decide) (by decide) (by decide)⟩

/-- Claim C4, counterexample: with environment FOO=$BAR, BAR=x the
substitution of the text $FOO yields $BAR, and substituting a second
time yields x, so substitution applied twice differs from substitution
applied once. -/
theorem substitution_not_idempotent_counterexample :
    osExpandEnv [("FOO".data, "$BAR".data), ("BAR".data, "x".data)]
        (osExpandEnv [("FOO".data, "$BAR".data), ("BAR".data, "x".data)] "$FOO".data)
      ≠ osExpandEnv [("FOO".data, "$BAR".data), ("BAR".data, "x".data)] "$FOO".data := by
  decide

/-- Claim C4 as amended: when no value in the environment contains a
dollar sign, applying the substitution twice yields the same bytes as
applying it once. -/
theorem substitution_idempotent (env : List (List Char × List Char))
    (hm : ∀ p ∈ env, '$' ∉ p.2) (s : List Char) :
    osExpandEnv env (osExpandEnv env s) = osExpandEnv env s := by
  have hg : ∀ n, '$' ∉ getenv env n := by
    intro n
    unfold getenv
    cases hfind : env.find? (fun p => p.1 == n) with
    | none => simp
    | some p => exact hm p (List.mem_of_find?_eq_some hfind)
  exact expandAux_of_inertB (getenv env) _ _ le_rfl
    (inertB_expandAux (getenv env) hg _ _ le_rfl)

/-- Witness for the claim C4 theorem: with FOO=bar (no dollar sign in
any value) the expansion of a text with one reference is a fixed point
of the substitution. -/
theorem substitution_idempotent_witness :
    osExpandEnv [("FOO".data, "bar".data)]
        (osExpandEnv [("FOO".data, "bar".data)] "a ${FOO} b".data)
      = osExpandEnv [("FOO".data, "bar".data)] "a ${FOO} b".data :=
  substitution_idempotent [("FOO".data, "bar".data)] (by decide) "a ${FOO} b".data

/-- Claim C7: at startup lastConfigProcess (the zero time, 0) is
strictly earlier than lastConfigChange = time.Now() (positive), the
timer armed at startup has zero delay, and a run that receives only
timer firings (zero external change events), the first at or after the
start time, performs exactly one reprocessing pass. -/
theorem startup_single_pass (processDelay startTime n1 : Nat) (rest : List Nat)
    (h0 : 0 < startTime) (h1 : startTime ≤ n1) :
    (initState startTime).lastConfigProcess < (initState startTime).lastConfigChange ∧
    initialTimerDelay = 0 ∧
    countPasses processDelay (initState startTime) (n1 :: rest) = 1 := by
  refine ⟨h0, rfl, ?_⟩
  have hrun : coordStep processDelay n1 false false (initState startTime) .timerFire
      = ⟨⟨n1, startTime⟩, true, true, none, false⟩ := by
    simp [coordStep, initState, h0]
  simp only [countPasses, hrun]
  rw [countPasses_clean processDelay rest ⟨n1, startTime⟩ h1]
  simp

/-- Witness for the claim C7 theorem: starting at time 10 with firings
at times 10, 12 and 20 and no change events, exactly one pass runs. -/
theorem startup_single_pass_witness :
    (initState 10).lastConfigProcess < (initState 10).lastConfigChange ∧
    initialTimerDelay = 0 ∧
    countPasses 5 (initState 10) [10, 12, 20] = 1 :=
  startup_single_pass 5 10 10 [12, 20] (by decide) (by decide)

/-- Claim C9: output is flattened into the target directory by base
name: any two source paths with equal base names yield the same target
path, and for a tree with two subdirectories a and b each holding a
file named x.yml, the pass writes both to the same target file, which
afterwards holds the processed content of the file walked last. -/
theorem flattened_names_collide :
    (∀ dst p1 p2 : List Char, splitBase p1 = splitBase p2 →
      targetFileOf dst p1 = targetFileOf dst p2) ∧
    (∀ (env : List (List Char × List Char)) (c1 c2 : List Char),
      processConfigChanges env "/processed-config".data "/config".data
          (.dir (.cons "a".data (.dir (.cons "x.yml".data (.file c1) .nil))
            (.cons "b".data (.dir (.cons "x.yml".data (.file c2) .nil)) .nil)))
        = [("/processed-config/x.yml".data, osExpandEnv env c1),
           ("/processed-config/x.yml".data, osExpandEnv env c2)] ∧
      storeLookup
        (processConfigChanges env "/processed-config".data "/config".data
          (.dir (.cons "a".data (.dir (.cons "x.yml".data (.file c1) .nil))
            (.cons "b".data (.dir (.cons "x.yml".data (.file c2) .nil)) .nil))))
        "/processed-config/x.yml".data
        = some (osExpandEnv env c2)) := by
  constructor
  · intro dst p1 p2 h
    unfold targetFileOf
    rw [h]
  · intro env c1 c2
    exact ⟨rfl, rfl⟩

/-- Witness for the claim C9 theorem: the source files a/x.yml and
b/x.yml are written to the same target file under /d. -/
theorem flattened_names_collide_witness :
    targetFileOf "/d".data "a/x.yml".data = targetFileOf "/d".data "b/x.yml".data :=
  flattened_names_collide.1 "/d".data "a/x.yml".data "b/x.yml".data (by decide)

/-- Claim C10: the recursive walk over a finite directory tree is a
total function of the tree (it terminates by structural recursion), and
it visits each regular file exactly once: the list of writes it
performs has exactly one entry per regular file in the tree. -/
theorem walk_terminates_visits_each_file_once
    (env : List (List Char × List Char)) (dst src : List Char) (t : FSNode) :
    (processConfigChanges env dst src t).length = t.fileCount :=
  walkLen_node env dst src t

end PromConfigWatcher

